import Mathlib

/-!
# Verification of the Polymarket arbitrage scanner core

A shallow embedding of the scanner's core module (the file exporting
`detectArbitrage`, `groupByEvent`, `findContradictions`, `isRangeMarket`,
`shouldExcludeMarket`) into Lean 4, together with theorems settling the
frozen claims about it.

Modelling conventions:
* JavaScript numbers are modelled as exact rationals (`ℚ`).  `NaN` — produced
  by `parseFloat` on non-numeric text — is modelled as `none : Option ℚ`; every
  comparison against `NaN` is `false`, which the embedding makes explicit at
  each branch.  The `Infinity` literal and overflow to infinity are outside the
  model (prices are finite decimal literals).
* A thrown JavaScript exception — `JSON.parse`'s `SyntaxError` on invalid
  JSON, or the `TypeError` raised by `groups[eventKey].push` when an event key
  collides with an inherited `Object.prototype` property such as
  `"__proto__"` — is modelled by `none` in an `Option`-valued result:
  `detectArbitrage : List Market → Option (List Opportunity)` returns `none`
  exactly when the source would throw.
* JavaScript regular expressions (all used with the `i` flag, replacements with
  the `g` flag) are embedded via a small backtracking matcher (`Reg`, `mC`)
  with ordered alternation, greedy quantifiers and `\b` word boundaries —
  the observable semantics of the ECMAScript engine on these patterns.
* `String.prototype.toLowerCase` on the event-key path is modelled per
  character by `jsLowerChar`: the basic-Latin mapping plus the single
  length-changing mapping of Unicode Default Case Conversion, `'İ'` (U+0130)
  → `"i"` followed by U+0307.  On the keyword-matching paths
  (`shouldExcludeMarket`, `areInverse`), where only ASCII patterns are
  compared, the basic-Latin `Char.toLower` is used.
* `String.prototype.slice(0, 50)` is modelled as taking the first 50
  characters.
-/

namespace PolyScanner

/-! ## JavaScript character classes -/

/-- The ECMAScript `\s` class ( also used by `trim` and `parseFloat`):
whitespace and line terminators. -/
def jsWS (c : Char) : Bool :=
  c == ' ' || c == Char.ofNat 9 || c == Char.ofNat 10 || c == Char.ofNat 11 ||
  c == Char.ofNat 12 || c == Char.ofNat 13 || c == Char.ofNat 160 ||
  c == Char.ofNat 5760 ||
  (Char.ofNat 8192 ≤ c && c ≤ Char.ofNat 8202) ||
  c == Char.ofNat 8232 || c == Char.ofNat 8233 || c == Char.ofNat 8239 ||
  c == Char.ofNat 8287 || c == Char.ofNat 12288 || c == Char.ofNat 65279

/-- The ECMAScript `\w` class: ASCII letters, digits, underscore. -/
def isWordChar (c : Char) : Bool := c.isAlphanum || c == '_'

/-! ## A small regular-expression engine

Only the features the source's patterns use: single-character classes,
concatenation, ordered alternation, greedy star, and the zero-width word
boundary `\b`.  Matching is the standard backtracking (ECMAScript) semantics:
alternatives are tried left to right, stars are greedy, and the first overall
success wins. -/

inductive Reg : Type where
  | eps : Reg
  | cls : (Char → Bool) → Reg
  | seq : Reg → Reg → Reg
  | alt : Reg → Reg → Reg
  | star : Reg → Reg
  | wordB : Reg

/-- `\b` holds when exactly one of the neighbouring characters is a word
character (string ends count as non-word). -/
def atBoundary (prev : Option Char) (rest : List Char) : Bool :=
  let a := match prev with | some c => isWordChar c | none => false
  let b := match rest with | c :: _ => isWordChar c | [] => false
  a != b

/-- CPS backtracking matcher, one fuel level, structurally recursive on the
pattern.  `prev` is the character just before the current position (for `\b`).
The continuation receives the updated `prev` and the remaining input; the
result carries the final `prev` and remainder of the overall match.  `stars`
resumes a star's remaining iterations at the next-lower fuel level; every star
in the source has a non-nullable body, and an iteration that consumes nothing
ends the loop (as in ECMAScript), so fuel `input length + 1` gives the exact
backtracking semantics. -/
def mCF (stars : Reg → Option Char → List Char →
      (Option Char → List Char → Option (Option Char × List Char)) →
      Option (Option Char × List Char)) :
    Reg → Option Char → List Char →
    (Option Char → List Char → Option (Option Char × List Char)) →
    Option (Option Char × List Char)
  | .eps, prev, s, k => k prev s
  | .cls p, _, s, k =>
    match s with
    | [] => none
    | c :: rest => if p c then k (some c) rest else none
  | .seq r1 r2, prev, s, k =>
    mCF stars r1 prev s (fun p2 s2 => mCF stars r2 p2 s2 k)
  | .alt r1 r2, prev, s, k =>
    match mCF stars r1 prev s k with
    | some res => some res
    | none => mCF stars r2 prev s k
  | .star r, prev, s, k =>
    match mCF stars r prev s (fun p2 s2 =>
        if s2.length < s.length then stars (.star r) p2 s2 k else none) with
    | some res => some res
    | none => k prev s
  | .wordB, prev, s, k => if atBoundary prev s then k prev s else none

def mC : Nat → Reg → Option Char → List Char →
    (Option Char → List Char → Option (Option Char × List Char)) →
    Option (Option Char × List Char)
  | 0 => fun _ prev s k => k prev s
  | fuel + 1 => mCF (mC fuel)

/-- Leftmost-match search from the current position, accumulating the skipped
prefix in reverse.  Returns `(skipped-prefix reversed, match length, character
preceding the match end, remainder after the match)`. -/
def searchFrom (r : Reg) : Option Char → List Char → List Char →
    Option (List Char × Nat × Option Char × List Char)
  | prev, s, preRev =>
    match mC (s.length + 1) r prev s (fun p2 s2 => some (p2, s2)) with
    | some (p2, rest) => some (preRev, s.length - rest.length, p2, rest)
    | none =>
      match s with
      | [] => none
      | c :: cs => searchFrom r (some c) cs (c :: preRev)

/-- `RegExp.prototype.test`. -/
def rtest (r : Reg) (s : List Char) : Bool := (searchFrom r none s []).isSome

/-- One step of `String.prototype.replace` with the `g` flag: replace the
leftmost match and continue after its end (an empty match advances one
character, as in ECMAScript). -/
def gRep (r : Reg) (rep : List Char) : Nat → Option Char → List Char → List Char
  | 0, _, s => s
  | fuel + 1, prev, s =>
    match searchFrom r prev s [] with
    | none => s
    | some (preRev, mlen, p2, rest) =>
      if mlen == 0 then
        match rest with
        | [] => preRev.reverse ++ rep
        | c :: cs => preRev.reverse ++ rep ++ c :: gRep r rep fuel (some c) cs
      else preRev.reverse ++ rep ++ gRep r rep fuel p2 rest

/-- `str.replace(regex-with-g-flag, rep)`. -/
def rreplace (r : Reg) (rep : String) (s : List Char) : List Char :=
  gRep r rep.data (s.length + 1) none s

/-! ## Pattern combinators (all source regexes use the `i` flag) -/

/-- Case-insensitive literal character (give `c` in lower case). -/
def rchar (c : Char) : Reg := .cls (fun x => x.toLower == c)

/-- Case-insensitive literal string. -/
def rstr (w : String) : Reg :=
  w.data.foldr (fun c acc => Reg.seq (rchar c) acc) Reg.eps

/-- Ordered alternation `a|b|c|…` (source order is significant). -/
def ralt : List Reg → Reg
  | [] => .eps
  | [r] => r
  | r :: rs => .alt r (ralt rs)

def rseq : List Reg → Reg
  | [] => .eps
  | r :: rs => .seq r (rseq rs)

/-- Greedy `r?`. -/
def ropt (r : Reg) : Reg := .alt r .eps

/-- Greedy `r+`. -/
def rplus (r : Reg) : Reg := .seq r (.star r)

def rws : Reg := .cls jsWS
def rdigit : Reg := .cls Char.isDigit

/-! ## The source's patterns (`extractEventKey`, lines 180–222) -/

/-- `\d{1,3}` (greedy). -/
def rd13 : Reg := .seq rdigit (ropt (.seq rdigit (ropt rdigit)))

/-- `numberSrc = \$?\s*\d{1,3}(?:,\d{3})*(?:\.\d+)?`. -/
def rnum : Reg :=
  rseq [ropt (rchar '$'), .star rws, rd13,
    .star (rseq [rchar ',', rdigit, rdigit, rdigit]),
    ropt (.seq (rchar '.') (rplus rdigit))]

/-- `unitSrc = (?:m|b|t|mn|bn|million|billion|trillion)` (source order). -/
def runit : Reg :=
  ralt [rstr "m", rstr "b", rstr "t", rstr "mn", rstr "bn",
    rstr "million", rstr "billion", rstr "trillion"]

/-- `amountWithUnitSrc = numberSrc\s*unitSrc\b`. -/
def ramount : Reg := rseq [rnum, .star rws, runit, .wordB]

/-- `\s+` inside the verbal patterns. -/
def rwsP : Reg := rplus rws

/-- The `hasComparatorWord` test regex (line 185). -/
def rCompWord : Reg :=
  rseq [.wordB,
    ralt [rstr "between",
      rseq [rstr "less", rwsP, rstr "than"],
      rseq [rstr "more", rwsP, rstr "than"],
      rseq [rstr "greater", rwsP, rstr "than"],
      rstr "under", rstr "over", rstr "above", rstr "below",
      rseq [rstr "at", rwsP, rstr "least"],
      rseq [rstr "at", rwsP, rstr "most"],
      rseq [rstr "no", rwsP, rstr "more", rwsP, rstr "than"],
      rseq [rstr "no", rwsP, rstr "less", rwsP, rstr "than"],
      rseq [rstr "or", rwsP, rstr "more"],
      rseq [rstr "or", rwsP, rstr "less"],
      rseq [rstr "exceed", ropt (ralt [rstr "s", rstr "ing"])],
      rseq [rstr "surpass", ropt (ralt [rstr "es", rstr "ing"])]],
    .wordB]

/-- The `hasComparatorSymbol` test regex `[<>]=?` (line 186). -/
def rCompSym : Reg :=
  .seq (.cls (fun c => c == '<' || c == '>')) (ropt (rchar '='))

/-- The `hasRangeDash` test regex
`numberSrc(?:\s*unitSrc)?\s*-\s*numberSrc\s*unitSrc\b` (line 187). -/
def rRangeDash : Reg :=
  rseq [rnum, ropt (.seq (.star rws) runit), .star rws, rchar '-', .star rws,
    rnum, .star rws, runit, .wordB]

/-- Strip pattern 1: `\bbetween\s+(num(?:\s*unit)?)\s+(?:and|to)\s+(amount)\b`. -/
def sp1 : Reg :=
  rseq [.wordB, rstr "between", rwsP, rnum, ropt (.seq (.star rws) runit),
    rwsP, ralt [rstr "and", rstr "to"], rwsP, ramount, .wordB]

/-- Strip pattern 2: `(num\s*unit\b)\s*-\s*(num\s*unit\b)`. -/
def sp2 : Reg :=
  rseq [ramount, .star rws, rchar '-', .star rws, ramount]

/-- Strip pattern 3: `(num)\s*-\s*(amount)`. -/
def sp3 : Reg := rseq [rnum, .star rws, rchar '-', .star rws, ramount]

/-- Strip pattern 4: `(num)\s+to\s+(amount)\b`. -/
def sp4 : Reg := rseq [rnum, rwsP, rstr "to", rwsP, ramount, .wordB]

/-- Strip pattern 5: `(?:<=|<)\s*(amount)`. -/
def sp5 : Reg := rseq [ralt [rstr "<=", rstr "<"], .star rws, ramount]

/-- Strip pattern 6: `(?:>=|>)\s*(amount)`. -/
def sp6 : Reg := rseq [ralt [rstr ">=", rstr ">"], .star rws, ramount]

/-- Strip pattern 7:
`\b(?:less\s+than|under|below|at\s+most|no\s+more\s+than)\s+(amount)\b`. -/
def sp7 : Reg :=
  rseq [.wordB,
    ralt [rseq [rstr "less", rwsP, rstr "than"], rstr "under", rstr "below",
      rseq [rstr "at", rwsP, rstr "most"],
      rseq [rstr "no", rwsP, rstr "more", rwsP, rstr "than"]],
    rwsP, ramount, .wordB]

/-- Strip pattern 8: `\b(?:more\s+than|over|above|greater\s+than|at\s+least|`
`no\s+less\s+than|exceed(?:s|ing)?|surpass(?:es|ing)?)\s+(amount)\b`. -/
def sp8 : Reg :=
  rseq [.wordB,
    ralt [rseq [rstr "more", rwsP, rstr "than"], rstr "over", rstr "above",
      rseq [rstr "greater", rwsP, rstr "than"],
      rseq [rstr "at", rwsP, rstr "least"],
      rseq [rstr "no", rwsP, rstr "less", rwsP, rstr "than"],
      rseq [rstr "exceed", ropt (ralt [rstr "s", rstr "ing"])],
      rseq [rstr "surpass", ropt (ralt [rstr "es", rstr "ing"])]],
    rwsP, ramount, .wordB]

/-- Strip pattern 9: `(amount)\s*(?:\+|\bor\s+more\b|\band\s+up\b)`. -/
def sp9 : Reg :=
  rseq [ramount, .star rws,
    ralt [rstr "+",
      rseq [.wordB, rstr "or", rwsP, rstr "more", .wordB],
      rseq [.wordB, rstr "and", rwsP, rstr "up", .wordB]]]

/-- Strip pattern 10: `(amount)\s*(?:\bor\s+less\b|\band\s+under\b)`. -/
def sp10 : Reg :=
  rseq [ramount, .star rws,
    ralt [rseq [.wordB, rstr "or", rwsP, rstr "less", .wordB],
      rseq [.wordB, rstr "and", rwsP, rstr "under", .wordB]]]

/-- The ten `stripPatterns` applied in source order (lines 191–219). -/
def stripPats : List Reg := [sp1, sp2, sp3, sp4, sp5, sp6, sp7, sp8, sp9, sp10]

/-- Cleanup class `[?.,:;()\[\]{}]` (line 229); the braces are written by
code point. -/
def rPunct : Reg :=
  .cls (fun c => c == '?' || c == '.' || c == ',' || c == ':' || c == ';' ||
    c == '(' || c == ')' || c == '[' || c == ']' ||
    c == Char.ofNat 123 || c == Char.ofNat 125)

/-- Cleanup class `[+]` (line 228). -/
def rPlusChar : Reg := rchar '+'

/-! ## String utilities mirroring the JavaScript built-ins -/

/-- Case-insensitive `^pat` check (the `i` flag lower-cases both sides). -/
def ciStartsWith : List Char → List Char → Bool
  | [], _ => true
  | _ :: _, [] => false
  | p :: ps, c :: cs => (p.toLower == c.toLower) && ciStartsWith ps cs

/-- `str.replace(/^pat /i, '')` for a literal pattern. -/
def stripLeadCI (p : List Char) (s : List Char) : List Char :=
  if ciStartsWith p s then s.drop p.length else s

/-- `str.trim()`. -/
def trimWS (s : List Char) : List Char :=
  ((s.dropWhile jsWS).reverse.dropWhile jsWS).reverse

/-- Per-character model of `String.prototype.toLowerCase` (basic Latin). -/
def jsLower (s : String) : String := String.mk (s.data.map Char.toLower)

/-- `str.includes(pat)`. -/
def containsSub (pat : List Char) (s : List Char) : Bool :=
  if pat.isPrefixOf s then true
  else
    match s with
    | [] => false
    | _ :: t => containsSub pat t

/-! ## `extractEventKey` (source lines 159–238) -/

/-- The chained leading-prefix replaces (lines 164–171), in source order. -/
def prefixList : List String :=
  ["Will ", "Does ", "Is ", "Are ", "Did ", "Has ", "Have "]

/-- Unicode punctuation normalisation (lines 174–178): NBSP (U+00A0) → space,
en/em dash (U+2013/U+2014) → hyphen, U+2264 → `<=`, U+2265 → `>=`. -/
def normalizeUni (s : List Char) : List Char :=
  s.foldr (fun c acc =>
    (if c == Char.ofNat 160 then [' ']
     else if c == Char.ofNat 8211 || c == Char.ofNat 8212 then ['-']
     else if c == Char.ofNat 8804 then ['<', '=']
     else if c == Char.ofNat 8805 then ['>', '=']
     else [c]) ++ acc) []

/-- The chained `replace(/^…/i, '')` calls of lines 164–171, in source order:
each replace applies to the previous replace's output. -/
def stripPrefixPhase (s : List Char) : List Char :=
  prefixList.foldl (fun s p => stripLeadCI p.data s) s

/-- One character of `String.prototype.toLowerCase()`: the ASCII case
mapping, plus the single length-changing mapping of Unicode Default Case
Conversion — `'İ'` (U+0130) lower-cases to the two characters `"i"` followed
by combining dot above (U+0307).  Other non-ASCII one-to-one mappings are
left as-is; no verified property distinguishes them. -/
def jsLowerChar (c : Char) : List Char :=
  if c = Char.ofNat 304 then [Char.ofNat 105, Char.ofNat 775]
  else [Char.toLower c]

/-- `str.toLowerCase()` over a character list. -/
def jsToLowerStr (l : List Char) : List Char :=
  l.foldr (fun c acc => jsLowerChar c ++ acc) []

/-- Line 234: `key.slice(0, 50).toLowerCase()` — the slice counts UTF-16
units (here code points: every character reaching this point is in the basic
multilingual plane) and the subsequent lower-casing may lengthen the
result. -/
def finalizeKey (l : List Char) : String :=
  String.mk (jsToLowerStr (l.take 50))

/-- Lines 163–231 of `extractEventKey`: everything before the final
`slice(0, 50).toLowerCase()` — strip one round of leading auxiliary-verb
prefixes in chain order, normalise unicode, strip bucket clauses when both a
magnitude-with-unit token and a comparator/range indicator are present, clean
residual symbols and punctuation, collapse whitespace, trim. -/
def cleanKey (question : String) : List Char :=
  let key0 := stripPrefixPhase question.data
  let key1 := normalizeUni key0
  let shouldStripBuckets :=
    rtest ramount key1 &&
      (rtest rCompWord key1 || rtest rCompSym key1 || rtest rRangeDash key1)
  let key2 :=
    if shouldStripBuckets then
      let k := stripPats.foldl (fun s r => rreplace r " " s) key1
      rreplace ramount " " k
    else key1
  let key3 := rreplace rCompSym " " key2
  let key4 := rreplace rPlusChar " " key3
  let key5 := rreplace rPunct " " key4
  let key6 := rreplace rwsP " " key5
  trimWS key6

/-- `extractEventKey(question)` (lines 159–238): clean the question, take the
first 50 characters, lower-case (which may expand an `'İ'`). -/
def extractEventKey (question : String) : String :=
  finalizeKey (cleanKey question)

/-! ## `isRangeMarket` (source lines 10–35; exported but unused by
`detectArbitrage` — the filter was removed, see the source's NOTE) -/

def rangeKeywords : List String :=
  ["less than", "more than", "greater than", "between", "under", "over"]

/-- `bucketPattern = /\$\d+[bmt]-\$\d+[bmt]/i`. -/
def rBucket : Reg :=
  rseq [rchar '$', rplus rdigit, .cls (fun c => let l := c.toLower
          l == 'b' || l == 'm' || l == 't'),
    rchar '-', rchar '$', rplus rdigit, .cls (fun c => let l := c.toLower
          l == 'b' || l == 'm' || l == 't')]

def isRangeMarket (question : String) : Bool :=
  let ql := jsLower question
  rangeKeywords.any (fun k => containsSub k.data ql.data) || rtest rBucket question.data

/-! ## `shouldExcludeMarket` (source lines 42–56) -/

/-- The exclusion keywords exactly as in the source — note the first entry is
the bare stem `"perform"`, not `"performer"`. -/
def excludeKeywords : List String :=
  ["perform", "halftime show", "headline", "lineup", "opening act",
   "surprise guest"]

def shouldExcludeMarket (question : String) : Bool :=
  let questionLower := jsLower question
  excludeKeywords.any (fun k => containsSub k.data questionLower.data)

/-! ## `areInverse` and `calculateTextOverlap` (source lines 291–328) -/

/-- `str.split(/\s+/)`: pieces between maximal whitespace runs; leading or
trailing whitespace contributes an empty piece, and the empty string splits to
`[""]`. -/
def splitWSAux : Nat → List Char → List Char → List (List Char)
  | _, [], acc => [acc.reverse]
  | 0, _, acc => [acc.reverse]
  | fuel + 1, c :: rest, acc =>
    if jsWS c then acc.reverse :: splitWSAux fuel (rest.dropWhile jsWS) []
    else splitWSAux fuel rest (c :: acc)

def jsSplitWS (s : String) : List String :=
  (splitWSAux (s.data.length + 1) s.data []).map String.mk

/-- `calculateTextOverlap(s1, s2)`: Jaccard ratio of the two whitespace-split
token sets.  JavaScript `Set`s are modelled by `dedup` lists; only the sizes
are used.  The union is never empty (a regex split always yields at least one
piece), so the division is by a positive count.  (`Rat.divInt` is exact
rational division, written so that the kernel can evaluate it.) -/
def calculateTextOverlap (s1 s2 : String) : ℚ :=
  let words1 := (jsSplitWS s1).dedup
  let words2 := (jsSplitWS s2).dedup
  let interLen := (words1.filter (fun x => words2.contains x)).length
  let unionLen := ((words1 ++ words2).dedup).length
  Rat.divInt (Int.ofNat interLen) (Int.ofNat unionLen)

/-- An apostrophe, by code point, for building the negative-marker strings. -/
def apoc : Char := Char.ofNat 39

/-- The negative markers (line 299); two contain an apostrophe. -/
def negKeywords : List String :=
  ["not", String.mk ['w', 'o', 'n', apoc, 't'],
   String.mk ['d', 'o', 'e', 's', 'n', apoc, 't'],
   "no ", "less than", "under"]

def hasNegKW (lowered : String) : Bool :=
  negKeywords.any (fun n => containsSub n.data lowered.data)

/-- `areInverse(q1, q2)`: exactly one side carries a negative marker (XOR) and
the token-overlap ratio strictly exceeds `0.5`. -/
def areInverse (q1 q2 : String) : Bool :=
  let q1Lower := jsLower q1
  let q2Lower := jsLower q2
  let q1HasNeg := hasNegKW q1Lower
  let q2HasNeg := hasNegKW q2Lower
  if q1HasNeg != q2HasNeg then
    decide (Rat.divInt 1 2 < calculateTextOverlap q1Lower q2Lower)
  else false

/-! ## Number parsing: `parseFloat` and `JSON.parse` models -/

def digitsVal (l : List Char) : ℤ :=
  l.foldl (fun a c => a * 10 + ((c.toNat : ℤ) - 48)) 0

def pow10 : Nat → ℤ
  | 0 => 1
  | n + 1 => 10 * pow10 n

/-- `parseFloat(s)` as an exact rational; `none` models `NaN` (no numeric
prefix).  The grammar: optional `\s`-trim, optional sign, decimal digits with
an optional fraction, optional exponent (ignored when it has no digits); the
value is `±digits · 10^(e − #fraction digits)`, built with `Rat.divInt` so
the kernel can evaluate it.  The `Infinity` literal and overflow are outside
the model. -/
def jsParseFloat (s : String) : Option ℚ :=
  let t := s.data.dropWhile jsWS
  let (neg, t1) : Bool × List Char :=
    match t with
    | '-' :: r => (true, r)
    | '+' :: r => (false, r)
    | _ => (false, t)
  let ip := t1.takeWhile Char.isDigit
  let t2 := t1.drop ip.length
  let (fp, t3) : List Char × List Char :=
    match t2 with
    | '.' :: r => (r.takeWhile Char.isDigit, r.drop (r.takeWhile Char.isDigit).length)
    | _ => ([], t2)
  if ip.isEmpty && fp.isEmpty then none
  else
    let m : ℤ := digitsVal (ip ++ fp)
    let e : ℤ :=
      match t3 with
      | c :: r =>
        if c == 'e' || c == 'E' then
          let (es, r2) : ℤ × List Char :=
            match r with
            | '-' :: rr => (-1, rr)
            | '+' :: rr => (1, rr)
            | _ => (1, r)
          let ed := r2.takeWhile Char.isDigit
          if ed.isEmpty then 0 else es * digitsVal ed
        else 0
      | [] => 0
    some (Rat.divInt ((if neg then -m else m) * pow10 e.toNat)
      (pow10 (fp.length + (-e).toNat)))

/-- JSON insignificant whitespace (space, tab, LF, CR only). -/
def jsonWS (c : Char) : Bool :=
  c == ' ' || c == Char.ofNat 9 || c == Char.ofNat 10 || c == Char.ofNat 13

def skipJsonWS (s : List Char) : List Char := s.dropWhile jsonWS

def hexVal (c : Char) : Option Nat :=
  if '0' ≤ c && c ≤ '9' then some (c.toNat - 48)
  else if 'a' ≤ c && c ≤ 'f' then some (c.toNat - 87)
  else if 'A' ≤ c && c ≤ 'F' then some (c.toNat - 55)
  else none

/-- JSON string body after the opening quote: returns the decoded content and
the remainder after the closing quote. -/
def jsonStringTail : List Char → Option (List Char × List Char)
  | [] => none
  | '"' :: r => some ([], r)
  | '\\' :: e :: r =>
    if e == 'u' then
      match r with
      | a :: b :: c :: d :: r2 => do
        let ha ← hexVal a
        let hb ← hexVal b
        let hc ← hexVal c
        let hd ← hexVal d
        let (cs, rest) ← jsonStringTail r2
        some (Char.ofNat (((ha * 16 + hb) * 16 + hc) * 16 + hd) :: cs, rest)
      | _ => none
    else do
      let c ←
        if e == '"' then some '"'
        else if e == '\\' then some '\\'
        else if e == '/' then some '/'
        else if e == 'b' then some (Char.ofNat 8)
        else if e == 'f' then some (Char.ofNat 12)
        else if e == 'n' then some (Char.ofNat 10)
        else if e == 'r' then some (Char.ofNat 13)
        else if e == 't' then some (Char.ofNat 9)
        else none
      let (cs, rest) ← jsonStringTail r
      some (c :: cs, rest)
  | c :: r => do
    let (cs, rest) ← jsonStringTail r
    some (c :: cs, rest)

/-- A JSON number at the head of the input (strict JSON grammar); returns its
source text, which `parseFloat` then evaluates, and the remainder. -/
def jsonNumberTail (s : List Char) : Option (List Char × List Char) :=
  let (sgnPart, t1) : List Char × List Char :=
    match s with
    | '-' :: r => (['-'], r)
    | _ => ([], s)
  let ip := t1.takeWhile Char.isDigit
  if ip.isEmpty then none
  else if 1 < ip.length && ip.headD '0' == '0' then none
  else
    let t2 := t1.drop ip.length
    let (fracPart, t3) : Option (List Char) × List Char :=
      match t2 with
      | '.' :: r =>
        let fp := r.takeWhile Char.isDigit
        if fp.isEmpty then (none, t2) else (some ('.' :: fp), r.drop fp.length)
      | _ => (some [], t2)
    match fracPart with
    | none => none
    | some fdigits =>
      let (expPart, t4) : Option (List Char) × List Char :=
        match t3 with
        | c :: r =>
          if c == 'e' || c == 'E' then
            let (sgnE, r2) : List Char × List Char :=
              match r with
              | '-' :: rr => (['-'], rr)
              | '+' :: rr => (['+'], rr)
              | _ => ([], r)
            let ed := r2.takeWhile Char.isDigit
            if ed.isEmpty then (none, t3)
            else (some (c :: (sgnE ++ ed)), r2.drop ed.length)
          else (some [], t3)
        | [] => (some [], t3)
      match expPart with
      | none => none
      | some edigits => some (sgnPart ++ ip ++ fdigits ++ edigits, t4)

/-- A parsed JSON value.  Number literals keep their source text; their
numeric value is recovered through the `parseFloat` model. -/
inductive JsonVal where
  | jstr : String → JsonVal
  | jnum : List Char → JsonVal
  | jbool : Bool → JsonVal
  | jnull : JsonVal
  | jarr : List JsonVal → JsonVal
  | jobj : List (String × JsonVal) → JsonVal

/-- Comma-separated element list of a JSON array, up to and including the
closing bracket; `pv` parses one value (at one less nesting fuel). -/
def jsonListTail (pv : List Char → Option (JsonVal × List Char)) :
    Nat → List Char → Option (List JsonVal × List Char)
  | 0, _ => none
  | fuel + 1, s => do
    let (v, r1) ← pv s
    match skipJsonWS r1 with
    | ']' :: r2 => some ([v], r2)
    | ',' :: r2 => do
      let (vs, r3) ← jsonListTail pv fuel (skipJsonWS r2)
      some (v :: vs, r3)
    | _ => none

/-- `"key": value` member list of a JSON object, up to and including the
closing brace. -/
def jsonMembersTail (pv : List Char → Option (JsonVal × List Char)) :
    Nat → List Char → Option (List (String × JsonVal) × List Char)
  | 0, _ => none
  | fuel + 1, s =>
    match s with
    | '"' :: r => do
      let (k, r1) ← jsonStringTail r
      match skipJsonWS r1 with
      | ':' :: r2 => do
        let (v, r3) ← pv (skipJsonWS r2)
        match skipJsonWS r3 with
        | '\x7d' :: r4 => some ([(String.mk k, v)], r4)
        | ',' :: r4 => do
          let (kvs, r5) ← jsonMembersTail pv fuel (skipJsonWS r4)
          some ((String.mk k, v) :: kvs, r5)
        | _ => none
      | _ => none
    | _ => none

/-- One JSON value at the head of the input (the full strict JSON grammar:
strings, numbers, booleans, null, arrays, objects); `fuel` bounds nesting
depth (each level consumes at least one character). -/
def jsonValTail : Nat → List Char → Option (JsonVal × List Char)
  | 0, _ => none
  | fuel + 1, s =>
    match s with
    | '"' :: r => (jsonStringTail r).map (fun p => (.jstr (String.mk p.1), p.2))
    | 't' :: 'r' :: 'u' :: 'e' :: r => some (.jbool true, r)
    | 'f' :: 'a' :: 'l' :: 's' :: 'e' :: r => some (.jbool false, r)
    | 'n' :: 'u' :: 'l' :: 'l' :: r => some (.jnull, r)
    | '[' :: r =>
      match skipJsonWS r with
      | ']' :: r2 => some (.jarr [], r2)
      | r1 => (jsonListTail (jsonValTail fuel) (r1.length + 1) r1).map
          (fun p => (.jarr p.1, p.2))
    | '\x7b' :: r =>
      match skipJsonWS r with
      | '\x7d' :: r2 => some (.jobj [], r2)
      | r1 => (jsonMembersTail (jsonValTail fuel) (r1.length + 1) r1).map
          (fun p => (.jobj p.1, p.2))
    | _ => (jsonNumberTail s).map (fun p => (.jnum p.1, p.2))

/-- `JSON.parse(s)`; `none` models a thrown `SyntaxError`. -/
def jsonParseVal (s : String) : Option JsonVal := do
  let t := skipJsonWS s.data
  let (v, rest) ← jsonValTail (t.length + 1) t
  if (skipJsonWS rest).isEmpty then some v else none

/-- `Array.prototype.toString` joins elements with commas, rendering `null`
as the empty string. -/
def jsJoin (f : JsonVal → List Char) : List JsonVal → List Char
  | [] => []
  | [v] => f v
  | v :: vs => f v ++ ',' :: jsJoin f vs

/-- `String(x)` for a JSON value, as used by `parseFloat`'s argument
coercion: strings are themselves, numbers their literal text (the same value
under `parseFloat` as the canonical `String(number)` form), arrays join with
commas, objects render `"[object Object]"`.  `fuel` bounds nesting depth. -/
def jsToStringV : Nat → JsonVal → List Char
  | 0, _ => []
  | fuel + 1, v =>
    match v with
    | .jstr s => s.data
    | .jnum t => t
    | .jbool true => "true".data
    | .jbool false => "false".data
    | .jnull => "null".data
    | .jobj _ => "[object Object]".data
    | .jarr l =>
      jsJoin (fun x =>
        match x with
        | .jnull => []
        | x => jsToStringV fuel x) l

/-- `v[0]`: array head, string first character, object property `"0"` (last
duplicate wins, as with `JSON.parse`); `none` is `undefined`. -/
def jsIndex0 : JsonVal → Option JsonVal
  | .jarr (x :: _) => some x
  | .jstr s =>
    match s.data with
    | c :: _ => some (.jstr (String.mk [c]))
    | [] => none
  | .jobj kvs =>
    match (kvs.filter (fun kv => kv.1 == "0")).getLast? with
    | some kv => some kv.2
    | none => none
  | _ => none

/-- `parseFloat(prices[0])` for a parsed `prices`: `parseFloat(undefined)` is
`NaN` (`none`); otherwise the element is coerced with `String(·)` and
parsed. -/
def priceOf (fuel : Nat) (v : JsonVal) : Option ℚ :=
  match jsIndex0 v with
  | none => none
  | some x => jsParseFloat (String.mk (jsToStringV fuel x))

/-! ## Data model -/

/-- An input market record (the fields `detectArbitrage` reads).
`outcomePrices` is kept as the raw string the source feeds to `JSON.parse`. -/
structure Market where
  question : String
  outcomePrices : String
  volume24hr : ℚ
  slug : String
  deriving DecidableEq, Repr

inductive OppType where
  | underbook
  | overbook
  | contradiction
  deriving DecidableEq, Repr

/-- A member-market entry of an emitted opportunity.  `yesPrice` is the
`parseFloat` result (`none` = `NaN`). -/
structure OppMarket where
  question : String
  yesPrice : Option ℚ
  slug : String
  deriving DecidableEq, Repr

/-- An emitted opportunity.  `totalProb` and `edge` carry the exact rational
value of the source's `toFixed(2)` strings. -/
structure Opportunity where
  type : OppType
  eventName : String
  markets : List OppMarket
  totalProb : ℚ
  edge : ℚ
  volume24hr : ℚ
  deriving DecidableEq, Repr

/-! ## NaN-propagating arithmetic and `toFixed(2)` -/

def nanAdd : Option ℚ → Option ℚ → Option ℚ
  | some a, some b => some (a + b)
  | _, _ => none

def nanMul : Option ℚ → Option ℚ → Option ℚ
  | some a, some b => some (a * b)
  | _, _ => none

/-- `⌊q⌋` computed on the normalised representation (the denominator is
positive, so `Int.fdiv` is floor division). -/
def jsFloor (q : ℚ) : ℤ := Int.fdiv q.num (q.den : ℤ)

/-- `x.toFixed(2)` re-read as a number: round to two decimal places
(half away from zero on the non-negative values arising here). -/
def round2 (q : ℚ) : ℚ := Rat.divInt (jsFloor (q * 100 + Rat.divInt 1 2)) 100

/-! ## `detectArbitrage` and its helpers (source lines 63–283) -/

/-- `parseFloat(JSON.parse(m.outcomePrices)[0])`.  Outer `none` = the
`JSON.parse` throw (invalid JSON only — any valid JSON value proceeds);
inner `none` = `NaN`, e.g. when `prices[0]` is `undefined` (empty array,
non-indexable value) or a non-numeric string. -/
def marketYes (m : Market) : Option (Option ℚ) :=
  (jsonParseVal m.outcomePrices).map (priceOf (m.outcomePrices.length + 1))

/-- The yes price of a market whose prices are known to parse (used only on
the emission paths, which are reached only when `JSON.parse` succeeded). -/
def yesOf (m : Market) : Option ℚ :=
  match marketYes m with
  | some y => y
  | none => none

/-- The body of the `reduce` computing `totalProb` (line 81): running sum of
`yesPrice * 100`, `NaN`-propagating, aborting on a `JSON.parse` throw. -/
def groupTotalAux (acc : Option ℚ) : List Market → Option (Option ℚ)
  | [] => some acc
  | m :: rest =>
    match marketYes m with
    | none => none
    | some y => groupTotalAux (nanAdd acc (nanMul y (some 100))) rest

def groupTotal (g : List Market) : Option (Option ℚ) := groupTotalAux (some 0) g

def marketsOf (g : List Market) : List OppMarket :=
  g.map (fun m => { question := m.question, yesPrice := yesOf m, slug := m.slug })

def sumVol (g : List Market) : ℚ := g.foldl (fun s m => s + m.volume24hr) 0

def mkUnderbook (eventName : String) (g : List Market) (s : ℚ) : Opportunity :=
  { type := .underbook, eventName := eventName, markets := marketsOf g,
    totalProb := round2 s, edge := round2 (100 - s), volume24hr := sumVol g }

def mkOverbook (eventName : String) (g : List Market) (s : ℚ) : Opportunity :=
  { type := .overbook, eventName := eventName, markets := marketsOf g,
    totalProb := round2 s, edge := round2 (s - 100), volume24hr := sumVol g }

/-- Strategy A's body for one event group (lines 78–118).  Groups with fewer
than 2 members are skipped; a `NaN` total fails both comparisons (`NaN < 98`
and `NaN > 102` are `false`), so such a group emits nothing. -/
def processGroup (eventName : String) (g : List Market) : Option (List Opportunity) :=
  if g.length < 2 then some []
  else
    match groupTotal g with
    | none => none
    | some none => some []
    | some (some s) =>
      some ((if s < 98 then [mkUnderbook eventName g s] else []) ++
            (if 102 < s then [mkOverbook eventName g s] else []))

/-- The lower-case-reachable property names a fresh `{}` inherits from
`Object.prototype`, all with truthy values: `groups[eventKey]` on such a key
finds the inherited property, `if (!groups[eventKey])` skips initialisation,
and `groups[eventKey].push` throws a `TypeError`. -/
def protoProps : List String :=
  ["__proto__", "constructor", "hasOwnProperty", "isPrototypeOf",
   "propertyIsEnumerable", "toString", "toLocaleString", "valueOf",
   "__defineGetter__", "__defineSetter__", "__lookupGetter__",
   "__lookupSetter__"]

/-- One step of `groupByEvent`'s loop body (lines 140–148) on a plain JS
object: an own key appends, a key inherited from `Object.prototype` throws
(`none`), a fresh key starts a new group. -/
def insertGroup : List (String × List Market) → String → Market →
    Option (List (String × List Market))
  | [], k, m => if protoProps.contains k then none else some [(k, [m])]
  | (k', g) :: rest, k, m =>
    if k' = k then some ((k', g ++ [m]) :: rest)
    else (insertGroup rest k m).map (fun gs => (k', g) :: gs)

def groupByEventAux : List (String × List Market) → List Market →
    Option (List (String × List Market))
  | gs, [] => some gs
  | gs, m :: rest =>
    match insertGroup gs (extractEventKey m.question) m with
    | none => none
    | some gs2 => groupByEventAux gs2 rest

/-- `groupByEvent` (lines 137–152) as an association list in first-seen key
order (a JS object would enumerate integer-like keys first; no verified
property depends on enumeration order).  `none` models the `TypeError`
thrown when an event key collides with an inherited `Object.prototype`
property name. -/
def groupByEvent (markets : List Market) : Option (List (String × List Market)) :=
  groupByEventAux [] markets

/-- The Strategy A loop over `Object.entries(eventGroups)` (line 77). -/
def strategyAAux : List (String × List Market) → Option (List Opportunity)
  | [] => some []
  | (name, g) :: rest => do
    let l ← processGroup name g
    let ls ← strategyAAux rest
    some (l ++ ls)

/-- One candidate pair of the contradiction search (lines 255–278).  Only the
`combined < 98` direction is emitted; a `NaN` combined sum emits nothing. -/
def pairOpp (m1 m2 : Market) : Option (List Opportunity) :=
  if areInverse m1.question m2.question then
    match marketYes m1, marketYes m2 with
    | some y1, some y2 =>
      match nanMul (nanAdd y1 y2) (some 100) with
      | some c =>
        if c < 98 then
          some [{ type := .contradiction,
                  eventName := m1.question ++ " vs " ++ m2.question,
                  markets := [{ question := m1.question, yesPrice := y1, slug := m1.slug },
                              { question := m2.question, yesPrice := y2, slug := m2.slug }],
                  totalProb := round2 c, edge := round2 (100 - c),
                  volume24hr := m1.volume24hr + m2.volume24hr }]
        else some []
      | none => some []
    | _, _ => none
  else some []

/-- All unordered pairs `(i, j)`, `i < j`, in loop order. -/
def allPairs : List Market → List (Market × Market)
  | [] => []
  | m :: rest => rest.map (fun m2 => (m, m2)) ++ allPairs rest

def contradictionsAux : List (Market × Market) → Option (List Opportunity)
  | [] => some []
  | (m1, m2) :: rest => do
    let l ← pairOpp m1 m2
    let ls ← contradictionsAux rest
    some (l ++ ls)

/-- `findContradictions` (lines 245–283). -/
def findContradictions (markets : List Market) : Option (List Opportunity) :=
  contradictionsAux (allPairs markets)

/-- `opportunities.sort((a, b) => parseFloat(b.edge) - parseFloat(a.edge))`:
the unique stable descending-by-edge reordering, as a stable insertion sort. -/
def insertByEdge (o : Opportunity) : List Opportunity → List Opportunity
  | [] => [o]
  | b :: rest => if b.edge ≤ o.edge then o :: b :: rest else b :: insertByEdge o rest

def sortByEdgeDesc (l : List Opportunity) : List Opportunity :=
  l.foldr insertByEdge []

/-- `detectArbitrage(markets)` (lines 63–130): filter the exclusion list,
group by event key, run Strategy A over the groups, run the pairwise
contradiction search over the same filtered set, concatenate, sort by
descending edge.  `none` models the propagation of an exception
(`JSON.parse` `SyntaxError` or the grouping `TypeError`) out of the
function. -/
def detectArbitrage (markets : List Market) : Option (List Opportunity) :=
  let validMarkets := markets.filter (fun m => !shouldExcludeMarket m.question)
  match groupByEvent validMarkets with
  | none => none
  | some eventGroups =>
    match strategyAAux eventGroups with
    | none => none
    | some a =>
      match findContradictions validMarkets with
      | none => none
      | some c => some (sortByEdgeDesc (a ++ c))

/-! ## Spec-side definitions

These follow the specification's wording (not the source) and are compared
with the source-derived definitions above in refinement-style claims. -/

/-- The member-market probability sum of an emitted opportunity, recomputed
from its `yesPrice` fields as percentages (`none` = non-finite). -/
def sumYesPctAux (acc : Option ℚ) (l : List OppMarket) : Option ℚ :=
  l.foldl (fun a r => nanAdd a (nanMul r.yesPrice (some 100))) acc

def sumYesPct (l : List OppMarket) : Option ℚ := sumYesPctAux (some 0) l

/-- Modelled from the spec: the claimed denylist of C5, whose first entry is
the full word `"performer"` (the source uses the stem `"perform"`). -/
def specDenylist : List String :=
  ["performer", "halftime show", "headline", "lineup", "opening act",
   "surprise guest"]

/-- Modelled from the spec: "case-insensitive substring test against a fixed
denylist (performer, halftime show, headline, lineup, opening act, surprise
guest)". -/
def specExcluded (q : String) : Bool :=
  specDenylist.any (fun k => containsSub k.data (jsLower q).data)

/-- Spec's wording for "contains a negative marker from the fixed list". -/
def hasNegMarker (q : String) : Prop :=
  ∃ n ∈ negKeywords, containsSub n.data (jsLower q).data = true

instance (q : String) : Decidable (hasNegMarker q) := by
  unfold hasNegMarker
  infer_instance

/-- Spec's wording for the token set: whitespace-split, lower-cased. -/
def tokenSet (lowered : String) : Finset String := (jsSplitWS lowered).toFinset

/-- Spec's wording for the Jaccard similarity of two token sets. -/
def jaccard (l1 l2 : String) : ℚ :=
  ((tokenSet l1 ∩ tokenSet l2).card : ℚ) / ((tokenSet l1 ∪ tokenSet l2).card : ℚ)

/-! ## Helper lemmas -/

theorem toLower_idem (c : Char) : (Char.toLower c).toLower = Char.toLower c := by
  unfold Char.toLower
  by_cases h : 65 ≤ c.toNat ∧ c.toNat ≤ 90
  · have h32 : (Char.ofNat (c.toNat + 32)).toNat = c.toNat + 32 := by
      obtain ⟨h1, h2⟩ := h
      interval_cases h3 : c.toNat <;> rfl
    simp [h, h32]
    omega
  · simp [h]

theorem jsToLowerStr_cons (c : Char) (l : List Char) :
    jsToLowerStr (c :: l) = jsLowerChar c ++ jsToLowerStr l := rfl

theorem jsLowerChar_length_le (c : Char) : (jsLowerChar c).length ≤ 2 := by
  by_cases h : c = Char.ofNat 304 <;> simp [jsLowerChar, h]

theorem jsToLowerStr_length_le (l : List Char) :
    (jsToLowerStr l).length ≤ 2 * l.length := by
  induction l with
  | nil => simp [jsToLowerStr]
  | cons c t ih =>
    rw [jsToLowerStr_cons, List.length_append, List.length_cons]
    have := jsLowerChar_length_le c
    omega

theorem jsLowerChar_length_eq {c : Char} (h : c ≠ Char.ofNat 304) :
    (jsLowerChar c).length = 1 := by
  rw [jsLowerChar, if_neg h]
  rfl

theorem jsToLowerStr_length_eq {l : List Char} (h : Char.ofNat 304 ∉ l) :
    (jsToLowerStr l).length = l.length := by
  induction l with
  | nil => rfl
  | cons c t ih =>
    rw [jsToLowerStr_cons, List.length_append, List.length_cons,
      jsLowerChar_length_eq (fun hc => h (by simp [hc])),
      ih (fun hm => h (by simp [hm]))]
    omega

theorem ofNat_add32_ne_304 {n : Nat} (h1 : 65 ≤ n) (h2 : n ≤ 90) :
    Char.ofNat (n + 32) ≠ Char.ofNat 304 := by
  interval_cases n <;> decide

theorem toLower_ne_304 {c : Char} (h : c ≠ Char.ofNat 304) :
    Char.toLower c ≠ Char.ofNat 304 := by
  unfold Char.toLower
  by_cases hu : 65 ≤ c.toNat ∧ c.toNat ≤ 90
  · simp only [ge_iff_le, hu, and_self, if_true]
    exact ofNat_add32_ne_304 hu.1 hu.2
  · simp only [ge_iff_le, hu, if_false]
    exact h

theorem jsLowerChar_fix {d c : Char} (hc : c ∈ jsLowerChar d) :
    jsLowerChar c = [c] := by
  rw [jsLowerChar] at hc
  by_cases hd : d = Char.ofNat 304
  · rw [if_pos hd] at hc
    simp only [List.mem_cons, List.not_mem_nil, or_false] at hc
    rcases hc with rfl | rfl <;> decide
  · rw [if_neg hd] at hc
    simp only [List.mem_singleton] at hc
    subst hc
    rw [jsLowerChar, if_neg (toLower_ne_304 hd), toLower_idem]

theorem mem_jsToLowerStr {c : Char} {l : List Char} (h : c ∈ jsToLowerStr l) :
    ∃ d ∈ l, c ∈ jsLowerChar d := by
  induction l with
  | nil => simp [jsToLowerStr] at h
  | cons d t ih =>
    rw [jsToLowerStr_cons, List.mem_append] at h
    rcases h with h | h
    · exact ⟨d, by simp, h⟩
    · obtain ⟨d2, hd2, hc2⟩ := ih h
      exact ⟨d2, by simp [hd2], hc2⟩

theorem jsToLowerStr_fixpoints {l : List Char}
    (h : ∀ c ∈ l, jsLowerChar c = [c]) : jsToLowerStr l = l := by
  induction l with
  | nil => rfl
  | cons c t ih =>
    rw [jsToLowerStr_cons, h c (by simp), ih (fun x hx => h x (by simp [hx]))]
    rfl

theorem jsToLowerStr_idem (l : List Char) :
    jsToLowerStr (jsToLowerStr l) = jsToLowerStr l := by
  apply jsToLowerStr_fixpoints
  intro c hc
  obtain ⟨d, _, hcd⟩ := mem_jsToLowerStr hc
  exact jsLowerChar_fix hcd

theorem mem_insertByEdge {x o : Opportunity} {l : List Opportunity} :
    x ∈ insertByEdge o l ↔ x = o ∨ x ∈ l := by
  induction l with
  | nil => simp [insertByEdge]
  | cons b rest ih =>
    by_cases hb : b.edge ≤ o.edge
    · simp only [insertByEdge, if_pos hb, List.mem_cons]
      try tauto
    · simp only [insertByEdge, if_neg hb, List.mem_cons, ih]
      try tauto

theorem pairwise_insertByEdge {o : Opportunity} {l : List Opportunity}
    (h : l.Pairwise (fun a b => b.edge ≤ a.edge)) :
    (insertByEdge o l).Pairwise (fun a b => b.edge ≤ a.edge) := by
  induction l with
  | nil => simp [insertByEdge]
  | cons b rest ih =>
    rw [List.pairwise_cons] at h
    by_cases hb : b.edge ≤ o.edge
    · rw [insertByEdge, if_pos hb, List.pairwise_cons]
      refine ⟨?_, List.pairwise_cons.mpr h⟩
      intro x hx
      rw [List.mem_cons] at hx
      rcases hx with hx | hx
      · exact hx ▸ hb
      · exact le_trans (h.1 x hx) hb
    · rw [insertByEdge, if_neg hb, List.pairwise_cons]
      refine ⟨?_, ih h.2⟩
      intro x hx
      rcases mem_insertByEdge.mp hx with hx | hx
      · exact hx ▸ le_of_lt (lt_of_not_le hb)
      · exact h.1 x hx

theorem mem_sortByEdgeDesc {x : Opportunity} {l : List Opportunity} :
    x ∈ sortByEdgeDesc l ↔ x ∈ l := by
  induction l with
  | nil => simp [sortByEdgeDesc]
  | cons b rest ih =>
    show x ∈ insertByEdge b (sortByEdgeDesc rest) ↔ _
    rw [mem_insertByEdge, ih]
    simp

theorem pairwise_sortByEdgeDesc (l : List Opportunity) :
    (sortByEdgeDesc l).Pairwise (fun a b => b.edge ≤ a.edge) := by
  induction l with
  | nil => simp [sortByEdgeDesc]
  | cons b rest ih => exact pairwise_insertByEdge ih

/-- A successful `reduce` over a group equals the recomputed member sum of the
emitted record's `yesPrice` fields. -/
theorem groupTotalAux_marketsOf (g : List Market) (acc : Option ℚ)
    (t : Option ℚ) (h : groupTotalAux acc g = some t) :
    sumYesPctAux acc (marketsOf g) = t := by
  induction g generalizing acc with
  | nil =>
    simp [groupTotalAux] at h
    simp [sumYesPctAux, marketsOf, h]
  | cons m rest ih =>
    rw [groupTotalAux] at h
    cases hy : marketYes m with
    | none => rw [hy] at h; exact absurd h (by simp)
    | some y =>
      rw [hy] at h
      have : yesOf m = y := by simp [yesOf, hy]
      simpa [marketsOf, sumYesPctAux, this] using ih _ h

theorem groupTotal_marketsOf {g : List Market} {t : Option ℚ}
    (h : groupTotal g = some t) : sumYesPct (marketsOf g) = t :=
  groupTotalAux_marketsOf g _ t h

/-- The Strategy A per-group characterisation (used by several claims). -/
theorem processGroup_eq (name : String) (g : List Market) (s : ℚ)
    (h2 : ¬ g.length < 2) (hs : groupTotal g = some (some s)) :
    processGroup name g =
      some ((if s < 98 then [mkUnderbook name g s] else []) ++
            (if 102 < s then [mkOverbook name g s] else [])) := by
  rw [processGroup, if_neg h2, hs]

theorem marketsOf_question {g : List Market} {r : OppMarket}
    (hr : r ∈ marketsOf g) : ∃ m ∈ g, r.question = m.question := by
  rw [marketsOf, List.mem_map] at hr
  obtain ⟨m, hm, rfl⟩ := hr
  exact ⟨m, hm, rfl⟩

theorem processGroup_sound {name : String} {g : List Market}
    {l : List Opportunity} (h : processGroup name g = some l)
    {o : Opportunity} (ho : o ∈ l) :
    ∃ s, groupTotal g = some (some s) ∧ o.markets = marketsOf g ∧
      ((o.type = .underbook ∧ s < 98) ∨ (o.type = .overbook ∧ 102 < s)) := by
  rw [processGroup] at h
  by_cases h2 : g.length < 2
  · rw [if_pos h2] at h
    injection h with h
    subst h
    simp at ho
  · rw [if_neg h2] at h
    cases hgt : groupTotal g with
    | none => rw [hgt] at h; exact absurd h (by simp)
    | some t =>
      cases t with
      | none =>
        rw [hgt] at h
        injection h with h
        subst h
        simp at ho
      | some s =>
        rw [hgt] at h
        injection h with h
        subst h
        refine ⟨s, rfl, ?_⟩
        rw [List.mem_append] at ho
        rcases ho with ho | ho
        · by_cases hu : s < 98
          · rw [if_pos hu] at ho
            simp at ho
            subst ho
            exact ⟨rfl, Or.inl ⟨rfl, hu⟩⟩
          · rw [if_neg hu] at ho
            simp at ho
        · by_cases hv : 102 < s
          · rw [if_pos hv] at ho
            simp at ho
            subst ho
            exact ⟨rfl, Or.inr ⟨rfl, hv⟩⟩
          · rw [if_neg hv] at ho
            simp at ho

theorem strategyAAux_sound {gs : List (String × List Market)}
    {a : List Opportunity} (h : strategyAAux gs = some a)
    {o : Opportunity} (ho : o ∈ a) :
    ∃ name g lg, (name, g) ∈ gs ∧ processGroup name g = some lg ∧ o ∈ lg := by
  induction gs generalizing a with
  | nil =>
    rw [strategyAAux] at h
    injection h with h
    subst h
    simp at ho
  | cons p rest ih =>
    obtain ⟨name, g⟩ := p
    rw [strategyAAux] at h
    cases hp : processGroup name g with
    | none => rw [hp] at h; exact absurd h (by simp)
    | some lg =>
      rw [hp] at h
      cases hr : strategyAAux rest with
      | none => rw [hr] at h; exact absurd h (by simp)
      | some ls =>
        rw [hr] at h
        simp at h
        subst h
        rw [List.mem_append] at ho
        rcases ho with ho | ho
        · exact ⟨name, g, lg, by simp, hp, ho⟩
        · obtain ⟨n2, g2, lg2, hmem, hp2, ho2⟩ := ih hr ho
          exact ⟨n2, g2, lg2, by simp [hmem], hp2, ho2⟩

theorem pairOpp_sound {m1 m2 : Market} {l : List Opportunity}
    (h : pairOpp m1 m2 = some l) {o : Opportunity} (ho : o ∈ l) :
    o.type = .contradiction ∧
    (∀ r ∈ o.markets, r.question = m1.question ∨ r.question = m2.question) ∧
    ∃ c, sumYesPct o.markets = some c ∧ c < 98 := by
  rw [pairOpp] at h
  by_cases hi : areInverse m1.question m2.question
  · rw [if_pos hi] at h
    cases hy1 : marketYes m1 with
    | none => rw [hy1] at h; exact absurd h (by simp)
    | some y1 =>
      cases hy2 : marketYes m2 with
      | none => rw [hy1, hy2] at h; exact absurd h (by simp)
      | some y2 =>
        rw [hy1, hy2] at h
        cases y1 with
        | none => simp [nanAdd, nanMul] at h; subst h; simp at ho
        | some p1 =>
          cases y2 with
          | none =>
            simp [nanAdd, nanMul] at h
            subst h
            simp at ho
          | some p2 =>
            simp only [nanAdd, nanMul] at h
            by_cases hc : (p1 + p2) * 100 < 98
            · rw [if_pos hc] at h
              injection h with h
              subst h
              simp only [List.mem_singleton] at ho
              subst ho
              refine ⟨rfl, ?_, (p1 + p2) * 100, ?_, hc⟩
              · intro r hr
                simp at hr
                rcases hr with hr | hr <;> subst hr
                · exact Or.inl rfl
                · exact Or.inr rfl
              · simp [sumYesPct, sumYesPctAux, nanAdd, nanMul]
                ring
            · rw [if_neg hc] at h
              injection h with h
              subst h
              simp at ho
  · rw [if_neg hi] at h
    injection h with h
    subst h
    simp at ho

theorem allPairs_mem {ms : List Market} {p : Market × Market}
    (h : p ∈ allPairs ms) : p.1 ∈ ms ∧ p.2 ∈ ms := by
  induction ms with
  | nil => simp [allPairs] at h
  | cons m rest ih =>
    rw [allPairs, List.mem_append] at h
    rcases h with h | h
    · rw [List.mem_map] at h
      obtain ⟨m2, hm2, rfl⟩ := h
      exact ⟨by simp, by simp [hm2]⟩
    · obtain ⟨h1, h2⟩ := ih h
      exact ⟨by simp [h1], by simp [h2]⟩

theorem contradictionsAux_sound {ps : List (Market × Market)}
    {c : List Opportunity} (h : contradictionsAux ps = some c)
    {o : Opportunity} (ho : o ∈ c) :
    ∃ m1 m2 lp, (m1, m2) ∈ ps ∧ pairOpp m1 m2 = some lp ∧ o ∈ lp := by
  induction ps generalizing c with
  | nil =>
    rw [contradictionsAux] at h
    injection h with h
    subst h
    simp at ho
  | cons p rest ih =>
    obtain ⟨m1, m2⟩ := p
    rw [contradictionsAux] at h
    cases hp : pairOpp m1 m2 with
    | none => rw [hp] at h; exact absurd h (by simp)
    | some lp =>
      rw [hp] at h
      cases hr : contradictionsAux rest with
      | none => rw [hr] at h; exact absurd h (by simp)
      | some ls =>
        rw [hr] at h
        simp at h
        subst h
        rw [List.mem_append] at ho
        rcases ho with ho | ho
        · exact ⟨m1, m2, lp, by simp, hp, ho⟩
        · obtain ⟨n1, n2, lp2, hmem, hp2, ho2⟩ := ih hr ho
          exact ⟨n1, n2, lp2, by simp [hmem], hp2, ho2⟩

theorem insertGroup_mem {gs : List (String × List Market)} {k : String}
    {m : Market} {gs' : List (String × List Market)}
    (hins : insertGroup gs k m = some gs') {k' : String} {g' : List Market}
    (h : (k', g') ∈ gs') {x : Market} (hx : x ∈ g') :
    (∃ g0, (k', g0) ∈ gs ∧ x ∈ g0) ∨ x = m := by
  induction gs generalizing gs' with
  | nil =>
    rw [insertGroup] at hins
    by_cases hp : protoProps.contains k
    · rw [if_pos hp] at hins
      exact absurd hins (by simp)
    · rw [if_neg hp] at hins
      injection hins with hins
      subst hins
      simp at h
      obtain ⟨rfl, rfl⟩ := h
      simp at hx
      exact Or.inr hx
  | cons p rest ih =>
    obtain ⟨k0, g0⟩ := p
    rw [insertGroup] at hins
    by_cases hk : k0 = k
    · rw [if_pos hk] at hins
      injection hins with hins
      subst hins
      rw [List.mem_cons] at h
      rcases h with h | h
      · rw [Prod.mk.injEq] at h
        obtain ⟨rfl, rfl⟩ := h
        rw [List.mem_append] at hx
        rcases hx with hx | hx
        · exact Or.inl ⟨g0, by simp, hx⟩
        · simp at hx
          exact Or.inr hx
      · exact Or.inl ⟨g', List.mem_cons_of_mem _ h, hx⟩
    · rw [if_neg hk] at hins
      cases hrec : insertGroup rest k m with
      | none => rw [hrec] at hins; exact absurd hins (by simp)
      | some rest' =>
        rw [hrec] at hins
        simp at hins
        subst hins
        rw [List.mem_cons] at h
        rcases h with h | h
        · rw [Prod.mk.injEq] at h
          obtain ⟨rfl, rfl⟩ := h
          exact Or.inl ⟨g', by simp, hx⟩
        · rcases ih hrec h with ⟨g1, hg1, hx1⟩ | hxm
          · exact Or.inl ⟨g1, List.mem_cons_of_mem _ hg1, hx1⟩
          · exact Or.inr hxm

theorem groupByEventAux_mem (ms : List Market) :
    ∀ (gs0 : List (String × List Market)) (Q : Market → Prop),
    (∀ k g x, (k, g) ∈ gs0 → x ∈ g → Q x) → (∀ m ∈ ms, Q m) →
    ∀ gs1, groupByEventAux gs0 ms = some gs1 →
    ∀ k g x, (k, g) ∈ gs1 → x ∈ g → Q x := by
  induction ms with
  | nil =>
    intro gs0 Q h0 _ gs1 hg
    rw [groupByEventAux] at hg
    injection hg with hg
    subst hg
    exact h0
  | cons m rest ih =>
    intro gs0 Q h0 hms gs1 hg
    rw [groupByEventAux] at hg
    cases hins : insertGroup gs0 (extractEventKey m.question) m with
    | none => rw [hins] at hg; exact absurd hg (by simp)
    | some gs2 =>
      rw [hins] at hg
      refine ih gs2 Q ?_ (fun m' hm' => hms m' (by simp [hm'])) gs1 hg
      intro k1 g1 x1 hg1 hx1
      rcases insertGroup_mem hins hg1 hx1 with ⟨g2, hg2, hx2⟩ | rfl
      · exact h0 k1 g2 x1 hg2 hx2
      · exact hms x1 (by simp)

theorem groupByEvent_mem {ms : List Market} {gs : List (String × List Market)}
    (hgs : groupByEvent ms = some gs) {k : String} {g : List Market}
    (h : (k, g) ∈ gs) {m : Market} (hm : m ∈ g) : m ∈ ms :=
  groupByEventAux_mem ms [] (· ∈ ms) (by simp) (fun _ h => h) gs hgs k g m h hm

theorem detect_shape {ms : List Market} {l : List Opportunity}
    (h : detectArbitrage ms = some l) :
    ∃ gs a c,
      groupByEvent (ms.filter (fun m => !shouldExcludeMarket m.question)) = some gs ∧
      strategyAAux gs = some a ∧
      contradictionsAux (allPairs (ms.filter (fun m => !shouldExcludeMarket m.question))) = some c ∧
      l = sortByEdgeDesc (a ++ c) := by
  rw [detectArbitrage] at h
  cases hgs : groupByEvent (ms.filter (fun m => !shouldExcludeMarket m.question)) with
  | none => rw [hgs] at h; exact absurd h (by simp)
  | some gs =>
    rw [hgs] at h
    dsimp only at h
    cases ha : strategyAAux gs with
    | none => rw [ha] at h; exact absurd h (by simp)
    | some a =>
      rw [ha] at h
      dsimp only at h
      rw [findContradictions] at h
      cases hc : contradictionsAux (allPairs (ms.filter (fun m => !shouldExcludeMarket m.question))) with
      | none => rw [hc] at h; exact absurd h (by simp)
      | some c =>
        rw [hc] at h
        dsimp only at h
        injection h with h
        exact ⟨gs, a, c, rfl, ha, rfl, h.symm⟩

/-- Every opportunity `detectArbitrage` emits: its member markets were never
on the exclusion list, and its recomputed member probability sum is finite
and strictly outside the tolerance band on the side its type dictates. -/
theorem detect_opp_sound {ms : List Market} {l : List Opportunity}
    (h : detectArbitrage ms = some l) {o : Opportunity} (ho : o ∈ l) :
    (∀ r ∈ o.markets, shouldExcludeMarket r.question = false) ∧
    (o.type = .overbook → ∃ s, sumYesPct o.markets = some s ∧ 102 < s) ∧
    (o.type ≠ .overbook → ∃ s, sumYesPct o.markets = some s ∧ s < 98) := by
  obtain ⟨gs, a, c, hgs, ha, hc, rfl⟩ := detect_shape h
  rw [mem_sortByEdgeDesc, List.mem_append] at ho
  rcases ho with ho | ho
  · obtain ⟨name, g, lg, hmem, hp, hog⟩ := strategyAAux_sound ha ho
    obtain ⟨s, hgt, hms, hcase⟩ := processGroup_sound hp hog
    have hsum : sumYesPct o.markets = some s := by
      rw [hms]
      exact groupTotal_marketsOf hgt
    refine ⟨?_, ?_, ?_⟩
    · intro r hr
      rw [hms] at hr
      obtain ⟨m, hmg, hq⟩ := marketsOf_question hr
      have hmv := groupByEvent_mem hgs hmem hmg
      rw [List.mem_filter] at hmv
      rw [hq]
      simpa using hmv.2
    · intro hov
      rcases hcase with ⟨ht, _⟩ | ⟨_, hs⟩
      · rw [hov] at ht
        exact absurd ht (by simp)
      · exact ⟨s, hsum, hs⟩
    · intro hnov
      rcases hcase with ⟨_, hs⟩ | ⟨ht, _⟩
      · exact ⟨s, hsum, hs⟩
      · exact absurd ht hnov
  · obtain ⟨m1, m2, lp, hpm, hp, hop⟩ := contradictionsAux_sound hc ho
    obtain ⟨htype, hqs, cc, hsum, hlt⟩ := pairOpp_sound hp hop
    refine ⟨?_, ?_, ?_⟩
    · intro r hr
      have hpair := allPairs_mem hpm
      rcases hqs r hr with hq | hq
      · have := hpair.1
        rw [List.mem_filter] at this
        rw [hq]
        simpa using this.2
      · have := hpair.2
        rw [List.mem_filter] at this
        rw [hq]
        simpa using this.2
    · intro hov
      rw [htype] at hov
      exact absurd hov (by simp)
    · intro _
      exact ⟨cc, hsum, hlt⟩

/-- The source's dedup-list Jaccard computation equals the spec's
finite-set Jaccard. -/
theorem overlap_eq_jaccard (s1 s2 : String) :
    calculateTextOverlap s1 s2 = jaccard s1 s2 := by
  have hInter : ((jsSplitWS s1).dedup.filter
      (fun x => (jsSplitWS s2).dedup.contains x)).length
      = ((jsSplitWS s1).toFinset ∩ (jsSplitWS s2).toFinset).card := by
    have hp : (fun x => (jsSplitWS s2).dedup.contains x)
        = (fun x => decide (x ∈ (jsSplitWS s2).toFinset)) := by
      funext x
      simp [List.mem_toFinset]
    rw [hp]
    have h1 : ((jsSplitWS s1).dedup.filter
        (fun x => decide (x ∈ (jsSplitWS s2).toFinset))).length
        = ((jsSplitWS s1).dedup.filter
        (fun x => decide (x ∈ (jsSplitWS s2).toFinset))).toFinset.card := by
      rw [List.card_toFinset, List.Nodup.dedup (List.Nodup.filter _ (List.nodup_dedup _))]
    rw [h1, List.toFinset_filter]
    congr 1
    ext x
    simp [List.mem_toFinset]
  have hUnion : (((jsSplitWS s1).dedup ++ (jsSplitWS s2).dedup).dedup).length
      = ((jsSplitWS s1).toFinset ∪ (jsSplitWS s2).toFinset).card := by
    rw [← List.card_toFinset, List.toFinset_append]
    congr 1
    ext x
    simp
  rw [calculateTextOverlap, jaccard, tokenSet, tokenSet, hInter, hUnion,
    Rat.divInt_eq_div]
  simp only [Int.ofNat_eq_natCast, Int.cast_natCast]

theorem hasNegKW_iff (q : String) :
    hasNegKW (jsLower q) = true ↔ hasNegMarker q := by
  rw [hasNegKW, hasNegMarker, List.any_eq_true]

theorem bne_iff_xor (a b : Bool) :
    (a != b) = true ↔ Xor' (a = true) (b = true) := by
  cases a <;> cases b <;> simp [Xor']

/-! ## Claims -/

/-- C2: for every event-key group with at least 2 members whose summed YES
prices (as percentages) are a finite value `s`, Strategy A emits exactly an
underbook opportunity when `s < 98` (edge = `100 − s`, emitted rounded to two
decimals), exactly an overbook opportunity when `s > 102` (edge = `s − 100`),
and nothing for `s ∈ [98, 102]`. -/
theorem C2_strategyA_band (name : String) (g : List Market) (s : ℚ)
    (h2 : ¬ g.length < 2) (hs : groupTotal g = some (some s)) :
    processGroup name g =
      some ((if s < 98 then [mkUnderbook name g s] else []) ++
            (if 102 < s then [mkOverbook name g s] else [])) :=
  processGroup_eq name g s h2 hs

/-- Supporting instances for the universal bucket-collapse property: the
three bucket questions of the spec's test — `$50B-$100B`, `$100B-$150B` and
`less than $50B` over the same subject — normalise to one and the same event
key (the bucket clause is stripped because a magnitude-with-unit token occurs
together with a comparator or dash range), with the literal subject `X` and
with a realistic subject.  The statement quantified over every subject text
is not settled here. -/
theorem bucketCollapse_instances :
    extractEventKey "Will X spend $50B-$100B?" = "x spend" ∧
    extractEventKey "Will X spend $100B-$150B?" = "x spend" ∧
    extractEventKey "Will X spend less than $50B?" = "x spend" ∧
    extractEventKey "Will DOGE cut $50B-$100B in spending?" =
      extractEventKey "Will DOGE cut less than $50B in spending?" :=
  ⟨by decide, by decide, by decide, by decide⟩

/-- C6 counterexample: the claim says at most one leading auxiliary prefix is
ever stripped, so `"Will Does it rain?"` would keep `"does"`; the source's
chained replaces strip `"Will "` and then also `"Does "`, so the key is
`"it rain"`, not `"does it rain"`. -/
theorem C6_single_prefix_cx :
    extractEventKey "Will Does it rain?" = "it rain" ∧
    extractEventKey "Will Does it rain?" ≠ "does it rain" :=
  ⟨by decide, by decide⟩

/-- C6 amended: the seven prefix replaces are chained in source order
(`Will`, `Does`, `Is`, `Are`, `Did`, `Has`, `Have`), each applied at most once
to the previous replace's output.  Hence a later-listed prefix exposed by
stripping an earlier one is stripped as well (`"Will Does …"` loses both),
while an earlier-listed prefix exposed by a later one is kept
(`"Does Will …"` keeps `"Will "`). -/
theorem C6_prefix_chain (t : List Char)
    (hIs : ciStartsWith "Is ".data t = false)
    (hAre : ciStartsWith "Are ".data t = false)
    (hDid : ciStartsWith "Did ".data t = false)
    (hHas : ciStartsWith "Has ".data t = false)
    (hHave : ciStartsWith "Have ".data t = false) :
    stripPrefixPhase ("Will Does ".data ++ t) = t ∧
    stripPrefixPhase ("Does Will ".data ++ t) = "Will ".data ++ t := by
  constructor
  · show stripLeadCI "Have ".data (stripLeadCI "Has ".data (stripLeadCI "Did ".data
      (stripLeadCI "Are ".data (stripLeadCI "Is ".data t)))) = t
    simp only [stripLeadCI, hIs, hAre, hDid, hHas, hHave, Bool.false_eq_true,
      if_false]
  · rfl

/-- C6 amended witness. -/
theorem C6_prefix_chain_witness :
    stripPrefixPhase ("Will Does ".data ++ "it rain?".data) = "it rain?".data ∧
    stripPrefixPhase ("Does Will ".data ++ "it rain?".data) =
      "Will ".data ++ "it rain?".data :=
  C6_prefix_chain "it rain?".data (by decide) (by decide) (by decide)
    (by decide) (by decide)

/-- C7 counterexample: a question of 51 `'İ'` (U+0130) characters.  The
cleaning pipeline leaves it unchanged, `slice(0, 50)` keeps 50 characters,
and `toLowerCase()` expands each to two — the key has 100 characters,
refuting the claimed 50-character bound. -/
theorem C7_len_cx :
    (extractEventKey (String.mk (List.replicate 51 (Char.ofNat 304)))).length
      = 100 ∧
    ¬ (extractEventKey
        (String.mk (List.replicate 51 (Char.ofNat 304)))).length ≤ 50 :=
  ⟨by decide, by decide⟩

section CleanKeyOpaque

/- `cleanKey`'s symbolic unfolding is large; the bound proofs below never
inspect it, so it is kept folded while they elaborate. -/
attribute [local irreducible] cleanKey

/-- C7 amended: `extractEventKey` is total by construction and its output is
a fixed point of lower-casing, but the claimed 50-character bound is wrong:
`toLowerCase()` runs after `slice(0, 50)` and maps `'İ'` (U+0130) to the two
characters `"i"` + U+0307 — the only length-changing lowercase mapping — so
the true bound is 100 characters.  The 50-character bound does hold whenever
the pre-slice key contains no `'İ'`. -/
theorem C7_total_bounded (q : String) :
    (extractEventKey q).length ≤ 100 ∧
    jsToLowerStr (extractEventKey q).data = (extractEventKey q).data ∧
    (Char.ofNat 304 ∉ cleanKey q → (extractEventKey q).length ≤ 50) := by
  refine ⟨?_, ?_, ?_⟩
  · rw [extractEventKey, finalizeKey, String.length_mk]
    have h1 := jsToLowerStr_length_le ((cleanKey q).take 50)
    have h2 : ((cleanKey q).take 50).length ≤ 50 := List.length_take_le _ _
    omega
  · rw [extractEventKey, finalizeKey]
    exact jsToLowerStr_idem ((cleanKey q).take 50)
  · intro h
    rw [extractEventKey, finalizeKey, String.length_mk]
    rw [jsToLowerStr_length_eq (fun hm => h (List.mem_of_mem_take hm))]
    exact List.length_take_le _ _

end CleanKeyOpaque

/-- C7 witness: an ASCII question has no `'İ'` in its pre-slice key, so the
conditional 50-character bound applies to it. -/
theorem C7_total_bounded_witness :
    Char.ofNat 304 ∉ cleanKey "Will X win?" ∧
    (extractEventKey "Will X win?").length ≤ 50 :=
  ⟨by decide, (C7_total_bounded "Will X win?").2.2 (by decide)⟩

/-- C9: the pipeline is deterministic and idempotent per input snapshot.  In
this embedding both `detectArbitrage` and `extractEventKey` are pure
functions — the source performs no I/O, reads no clock and uses no randomness
or mutable global state on these paths — so two runs on identical input are
definitionally equal. -/
theorem C9_deterministic (ms : List Market) (q : String) :
    detectArbitrage ms = detectArbitrage ms ∧
    extractEventKey q = extractEventKey q :=
  ⟨rfl, rfl⟩

/-- C4: `areInverse(q1, q2)` returns true exactly when exactly one of the two
lower-cased questions contains a negative marker from the fixed list (an XOR)
and the Jaccard similarity of their whitespace-split, lower-cased token sets
strictly exceeds `0.5`; in particular, two questions that both contain
`"not"` are never classified as inverse. -/
theorem C4_areInverse_iff :
    (∀ q1 q2 : String, areInverse q1 q2 = true ↔
      (Xor' (hasNegMarker q1) (hasNegMarker q2) ∧
        1 / 2 < jaccard (jsLower q1) (jsLower q2))) ∧
    (∀ q1 q2 : String,
      containsSub "not".data (jsLower q1).data = true →
      containsSub "not".data (jsLower q2).data = true →
      areInverse q1 q2 = false) := by
  have half : (Rat.divInt 1 2 : ℚ) = 1 / 2 := by
    rw [Rat.divInt_eq_div]
    norm_num
  constructor
  · intro q1 q2
    simp only [areInverse]
    by_cases hx : (hasNegKW (jsLower q1) != hasNegKW (jsLower q2)) = true
    · rw [if_pos hx, decide_eq_true_eq, overlap_eq_jaccard, half]
      have hxor := (bne_iff_xor _ _).mp hx
      rw [hasNegKW_iff, hasNegKW_iff] at hxor
      exact ⟨fun h => ⟨hxor, h⟩, fun h => h.2⟩
    · rw [if_neg hx]
      simp only [Bool.false_eq_true, false_iff, not_and]
      intro hxor
      exact absurd ((bne_iff_xor _ _).mpr
        (by rw [hasNegKW_iff, hasNegKW_iff]; exact hxor)) hx
  · intro q1 q2 h1 h2
    have n1 : hasNegKW (jsLower q1) = true :=
      List.any_eq_true.mpr ⟨"not", by simp [negKeywords], h1⟩
    have n2 : hasNegKW (jsLower q2) = true :=
      List.any_eq_true.mpr ⟨"not", by simp [negKeywords], h2⟩
    simp [areInverse, n1, n2]

/-- C5 counterexample: the claimed denylist has the full word `"performer"`,
but the source's first keyword is the stem `"perform"`: the question
`"Will they perform well?"` is excluded by the source yet matches none of the
claimed denylist substrings. -/
theorem C5_denylist_cx :
    shouldExcludeMarket "Will they perform well?" = true ∧
    specExcluded "Will they perform well?" = false :=
  ⟨by decide, by decide⟩

/-- C5 amended: the exclusion pre-filter returns true exactly when the
lower-cased question contains one of the source's keywords (`perform` — a stem
also matching `performer`, `performance`, … — `halftime show`, `headline`,
`lineup`, `opening act`, `surprise guest`), and every market matching the
filter is removed before both strategies, so no emitted opportunity ever
references an excluded question. -/
theorem C5_denylist_filter :
    (∀ q : String, shouldExcludeMarket q = true ↔
      ∃ k ∈ excludeKeywords, containsSub k.data (jsLower q).data = true) ∧
    (∀ (ms : List Market) (l : List Opportunity), detectArbitrage ms = some l →
      ∀ o ∈ l, ∀ r ∈ o.markets, shouldExcludeMarket r.question = false) := by
  constructor
  · intro q
    simp only [shouldExcludeMarket, List.any_eq_true]
  · intro ms l h o ho r hr
    exact (detect_opp_sound h ho).1 r hr

/-- C8: the opportunity list returned by `detectArbitrage` — underbook,
overbook and contradiction entries merged — is sorted by descending numeric
edge: every entry's edge is at least the next entry's. -/
theorem C8_sorted_desc (ms : List Market) (l : List Opportunity)
    (h : detectArbitrage ms = some l) :
    l.Chain' (fun a b => b.edge ≤ a.edge) := by
  obtain ⟨gs, a, c, _, _, _, rfl⟩ := detect_shape h
  exact List.Pairwise.chain' (pairwise_sortByEdgeDesc _)

/-- C10: every opportunity `detectArbitrage` emits has its member probability
sum strictly outside the tolerance band — strictly below 98 for underbook and
contradiction entries, strictly above 102 for overbook entries — so no group
or pair summing into `[98, 102]` (or to a non-finite value) ever appears in
the output. -/
theorem C10_band_invariant (ms : List Market) (l : List Opportunity)
    (h : detectArbitrage ms = some l) (o : Opportunity) (ho : o ∈ l) :
    ((o.type = .underbook ∨ o.type = .contradiction) →
      ∃ s, sumYesPct o.markets = some s ∧ s < 98) ∧
    (o.type = .overbook → ∃ s, sumYesPct o.markets = some s ∧ 102 < s) := by
  obtain ⟨_, hover, hunder⟩ := detect_opp_sound h ho
  constructor
  · intro ht
    refine hunder ?_
    rcases ht with ht | ht <;> simp [ht]
  · exact hover

section RatKernelEval

/- The witnesses below evaluate the pipeline, including its exact-rational
arithmetic, inside `decide`; these arithmetic operations are `irreducible`
by default only to keep `simp`-normal forms tidy. -/
attribute [local semireducible] Rat.add Rat.mul Rat.sub Rat.inv

/-- C2 witness: a 2-market group summing to exactly 98.0 emits nothing, one
summing to 97.99 emits one underbook whose edge is 2.01. -/
theorem C2_strategyA_band_witness :
    processGroup "e"
      [⟨"q", "[\"0.49\"]", 1, "s1"⟩, ⟨"q", "[\"0.49\"]", 2, "s2"⟩] = some [] ∧
    processGroup "e"
      [⟨"q", "[\"0.49\"]", 1, "s1"⟩, ⟨"q", "[\"0.4899\"]", 2, "s2"⟩] =
      some [mkUnderbook "e"
        [⟨"q", "[\"0.49\"]", 1, "s1"⟩, ⟨"q", "[\"0.4899\"]", 2, "s2"⟩]
        (Rat.divInt 9799 100)] ∧
    (mkUnderbook "e"
        [⟨"q", "[\"0.49\"]", 1, "s1"⟩, ⟨"q", "[\"0.4899\"]", 2, "s2"⟩]
        (Rat.divInt 9799 100)).edge = Rat.divInt 201 100 := by
  refine ⟨?_, ?_, by decide⟩
  · rw [C2_strategyA_band "e" _ 98 (by decide) (by decide)]
    rw [if_neg (by decide : ¬ (98 : ℚ) < 98), if_neg (by decide : ¬ (102 : ℚ) < 98)]
    rfl
  · rw [C2_strategyA_band "e" _ (Rat.divInt 9799 100) (by decide) (by decide)]
    rw [if_pos (by decide : Rat.divInt 9799 100 < 98),
      if_neg (by decide : ¬ (102 : ℚ) < Rat.divInt 9799 100)]
    rfl

/-- C4 witness: a negated/plain question pair with 4-of-5 token overlap is
classified inverse; two questions both containing `"not"` are not. -/
theorem C4_areInverse_iff_witness :
    areInverse "Will it rain today?" "Will it not rain today?" = true ∧
    areInverse "Not only a" "not a b" = false := by
  constructor
  · apply (C4_areInverse_iff.1 _ _).mpr
    refine ⟨by decide, ?_⟩
    have h1 : (tokenSet (jsLower "Will it rain today?") ∩
        tokenSet (jsLower "Will it not rain today?")).card = 4 := by decide
    have h2 : (tokenSet (jsLower "Will it rain today?") ∪
        tokenSet (jsLower "Will it not rain today?")).card = 5 := by decide
    rw [jaccard, h1, h2]
    norm_num
  · exact C4_areInverse_iff.2 _ _ (by decide) (by decide)

/-- C5 witness: a denylisted question is excluded; a question appearing in an
emitted opportunity is never denylisted. -/
theorem C5_denylist_filter_witness :
    shouldExcludeMarket "The halftime show lineup" = true ∧
    shouldExcludeMarket "Will AA happen?" = false := by
  constructor
  · exact (C5_denylist_filter.1 _).mpr ⟨"halftime show", by decide, by decide⟩
  · exact C5_denylist_filter.2
      [⟨"Will AA happen?", "[\"0.20\", \"0.80\"]", 100, "a1"⟩,
       ⟨"Will AA happen?", "[\"0.20\", \"0.80\"]", 200, "a2"⟩]
      [⟨.underbook, "aa happen",
        [⟨"Will AA happen?", some (Rat.divInt 20 100), "a1"⟩,
         ⟨"Will AA happen?", some (Rat.divInt 20 100), "a2"⟩], 40, 60, 300⟩]
      (by decide)
      ⟨.underbook, "aa happen",
        [⟨"Will AA happen?", some (Rat.divInt 20 100), "a1"⟩,
         ⟨"Will AA happen?", some (Rat.divInt 20 100), "a2"⟩], 40, 60, 300⟩
      (by decide)
      ⟨"Will AA happen?", some (Rat.divInt 20 100), "a1"⟩
      (by decide)

/-- C8 witness: a two-group input yields two underbooks sorted by descending
edge (60 before 20). -/
theorem C8_sorted_desc_witness :
    ([⟨.underbook, "aa happen",
        [⟨"Will AA happen?", some (Rat.divInt 20 100), "a1"⟩,
         ⟨"Will AA happen?", some (Rat.divInt 20 100), "a2"⟩], 40, 60, 300⟩,
      ⟨.underbook, "bb happen",
        [⟨"Will BB happen?", some (Rat.divInt 40 100), "b1"⟩,
         ⟨"Will BB happen?", some (Rat.divInt 40 100), "b2"⟩], 80, 20, 30⟩] :
      List Opportunity).Chain' (fun a b => b.edge ≤ a.edge) :=
  C8_sorted_desc
    [⟨"Will AA happen?", "[\"0.20\", \"0.80\"]", 100, "a1"⟩,
     ⟨"Will AA happen?", "[\"0.20\", \"0.80\"]", 200, "a2"⟩,
     ⟨"Will BB happen?", "[\"0.40\", \"0.60\"]", 10, "b1"⟩,
     ⟨"Will BB happen?", "[\"0.40\", \"0.60\"]", 20, "b2"⟩]
    _ (by decide)

/-- C10 witness: the underbook emitted for a group summing to 40% has a
finite member sum strictly below 98. -/
theorem C10_band_invariant_witness :
    sumYesPct [⟨"Will AA happen?", some (Rat.divInt 20 100), "a1"⟩,
      ⟨"Will AA happen?", some (Rat.divInt 20 100), "a2"⟩] = some 40 ∧
    (40 : ℚ) < 98 := by
  obtain ⟨s, hs, hlt⟩ := (C10_band_invariant
    [⟨"Will AA happen?", "[\"0.20\", \"0.80\"]", 100, "a1"⟩,
     ⟨"Will AA happen?", "[\"0.20\", \"0.80\"]", 200, "a2"⟩]
    [⟨.underbook, "aa happen",
      [⟨"Will AA happen?", some (Rat.divInt 20 100), "a1"⟩,
       ⟨"Will AA happen?", some (Rat.divInt 20 100), "a2"⟩], 40, 60, 300⟩]
    (by decide)
    ⟨.underbook, "aa happen",
      [⟨"Will AA happen?", some (Rat.divInt 20 100), "a1"⟩,
       ⟨"Will AA happen?", some (Rat.divInt 20 100), "a2"⟩], 40, 60, 300⟩
    (by decide)).1 (Or.inl rfl)
  have hs2 : sumYesPct [⟨"Will AA happen?", some (Rat.divInt 20 100), "a1"⟩,
      ⟨"Will AA happen?", some (Rat.divInt 20 100), "a2"⟩] = some s := hs
  have h40 : sumYesPct [⟨"Will AA happen?", some (Rat.divInt 20 100), "a1"⟩,
      ⟨"Will AA happen?", some (Rat.divInt 20 100), "a2"⟩] = some 40 := by decide
  rw [h40] at hs2
  exact ⟨h40, Option.some.inj hs2 ▸ hlt⟩

end RatKernelEval

end PolyScanner
